import Mathlib

/-!
# Verification of the comment merge/path/score core of hn-companion-mcp

Shallow embedding of `extractComments` and its helpers from
`src/lib/fetch-comments.ts`, together with proofs of the specification
claims about the merge, path-assignment and scoring pipeline.

Modelling conventions:
* The DOM map (`Map<number, DOMComment>` in the source, keyed by
  `Number(id)`) is modelled as an association list keyed by the id string.
  Hacker News ids are decimal numerals, on which `id ↦ Number(id)` is
  injective, so keying by the id string is equivalent.
* JavaScript number arithmetic in `calculateScore` is modelled by exact
  rational arithmetic (`ℚ`) with `Int.floor` for `Math.floor`.
* The in-place mutation of `path`/`score` during the `forEach` pass is
  modelled by `assignLoop`, which carries the already-processed prefix
  (`done`, paths and scores assigned) and the unprocessed suffix (`todo`,
  paths still `""`), so that the array searched by `find`/`filter` at each
  step is exactly `done ++ todo`, as in the source.
* The `throw new Error(...)` in `calculatePath` is modelled by
  `Except String`; a thrown error aborts the whole invocation.
-/

/-- `DOMComment` from `fetch-comments.ts`: the record produced by DOM
extraction for one visible comment row. -/
structure DOMComment where
  position : Nat
  text : String
  downvotes : Nat
deriving DecidableEq

/-- `CommentTree` from `fetch-comments.ts`: a node of the API tree
(`{id, type, author, children?}`).  An absent `children` field and an
empty array behave identically in the source, so children are a plain
list. -/
inductive CommentTree where
  | node (id ty author : String) (children : List CommentTree)

def CommentTree.id : CommentTree → String
  | .node i _ _ _ => i

def CommentTree.ty : CommentTree → String
  | .node _ t _ _ => t

def CommentTree.author : CommentTree → String
  | .node _ _ a _ => a

def CommentTree.children : CommentTree → List CommentTree
  | .node _ _ _ c => c

/-- The DOM extraction result: comment id ↦ DOM record. -/
def DomMap := List (String × DOMComment)

/-- `commentsInDOM.get(Number(comment.id))` of the source (see the keying
convention in the header comment). -/
def lookupDom (dom : DomMap) (id : String) : Option DOMComment :=
  (List.find? (fun p => p.1 = id) dom).map (fun p => p.2)

/-- `Comment` from `fetch-comments.ts`: one flat output record. -/
structure Comment where
  id : String
  author : String
  replies : Nat
  position : Nat
  text : String
  downvotes : Nat
  parentId : Option String
  path : String
  score : Int
deriving DecidableEq

mutual

/-- `flattenCommentTree` from `extractComments`: depth-first walk of the
API tree.  A `story` node is never emitted; its children are visited with
the story's id as parent.  A non-story node absent from the DOM map is
skipped together with its whole subtree (no recursion); a present node is
emitted (path `""`, score `0`, assigned later) and its children are
visited with its id as parent. -/
def flattenCommentTree (dom : DomMap) : CommentTree → Option String → List Comment
  | .node i ty au ch, parentId =>
    if ty = "story" then
      flattenChildren dom ch i
    else
      match lookupDom dom i with
      | none => []
      | some d =>
        { id := i, author := au, replies := ch.length, position := d.position,
          text := d.text, downvotes := d.downvotes, parentId := parentId,
          path := "", score := 0 } :: flattenChildren dom ch i

/-- `comment.children.forEach(child => flattenCommentTree(child, comment.id))`. -/
def flattenChildren (dom : DomMap) : List CommentTree → String → List Comment
  | [], _ => []
  | c :: cs, pid => flattenCommentTree dom c (some pid) ++ flattenChildren dom cs pid

end

/-- The comparator `(a, b) => a.position - b.position` of the source's
`flatComments.sort`, as the ordering it induces. -/
def posLe (a b : Comment) : Prop := a.position ≤ b.position

instance : DecidableRel posLe := fun a b => Nat.decLe a.position b.position

instance : IsTotal Comment posLe := ⟨fun a b => Nat.le_total a.position b.position⟩

instance : IsTrans Comment posLe := ⟨fun _ _ _ h h' => Nat.le_trans h h'⟩

/-- The merged, position-sorted survivor list:
`flattenCommentTree(commentsTree, null)` followed by
`flatComments.sort((a, b) => a.position - b.position)`.  ECMAScript's
`Array.prototype.sort` with this comparator is exactly a stable sort by
ascending `position`; a stable sort's output is uniquely determined by
the input, so the stable `insertionSort` computes the same list. -/
def mergedComments (tree : CommentTree) (dom : DomMap) : List Comment :=
  List.insertionSort posLe (flattenCommentTree dom tree none)

/-- `calculateScore` from `extractComments` (exact rational model of the
JS float arithmetic; `comment.downvotes || 0` is just `downvotes`, the
field being always set). -/
def calculateScore (comment : Comment) (totalCommentCount : Nat) : Int :=
  let downvotes := comment.downvotes
  let defaultScore : Int :=
    ⌊(1000 : ℚ) - (comment.position : ℚ) * 1000 / (totalCommentCount : ℚ)⌋
  let penaltyPerDownvote : ℚ := (defaultScore : ℚ) / 10
  let penalty : ℚ := penaltyPerDownvote * (downvotes : ℚ)
  ⌊max ((defaultScore : ℚ) - penalty) 0⌋

/-- `calculatePath` from `extractComments`.  `flatComments` is the array
as it stands when this comment is processed (earlier entries already carry
their final path).  Returns the path and the updated `topLevelCounter`,
or the thrown error.  (The source's `findIndex` returns `-1` when the
element is absent; here the comment always finds itself among its
siblings, so that branch is unreachable.) -/
def calculatePath (rootId : String) (flatComments : List Comment) (counter : Nat)
    (comment : Comment) : Except String (String × Nat) :=
  if comment.parentId = some rootId then
    Except.ok (toString counter, counter + 1)
  else
    match List.find? (fun c => some c.id = comment.parentId) flatComments with
    | none => Except.error ("Parent comment not found for comment " ++ comment.id)
    | some parentComment =>
      let parentPath := parentComment.path
      let siblings := flatComments.filter (fun c => c.parentId = comment.parentId)
      let positionInParent := siblings.findIdx (fun c => c.id = comment.id) + 1
      Except.ok (parentPath ++ "." ++ toString positionInParent, counter)

/-- The `flatComments.forEach(comment => { comment.path = ...; comment.score
= ... })` pass: `done` is the already-mutated prefix, `todo` the rest; the
array visible to `calculatePath` at each step is `done ++ todo`. -/
def assignLoop (rootId : String) (total : Nat) :
    List Comment → List Comment → Nat → Except String (List Comment)
  | done, [], _ => Except.ok done
  | done, c :: todo, counter =>
    match calculatePath rootId (done ++ c :: todo) counter c with
    | Except.error e => Except.error e
    | Except.ok (p, counter') =>
      assignLoop rootId total
        (done ++ [{ c with path := p, score := calculateScore c total }]) todo counter'

/-- `extractComments` from `fetch-comments.ts`: merge the API tree with
the DOM map, sort by position, then assign paths and scores. -/
def extractComments (tree : CommentTree) (dom : DomMap) : Except String (List Comment) :=
  let flat := mergedComments tree dom
  assignLoop tree.id flat.length [] flat 1

/-! ## Integer evaluation of the score

The rational arithmetic in `calculateScore` does not reduce inside the
kernel, so for evaluating the pipeline on concrete inputs we prove once
and for all that it agrees with a directly computable integer formula
(`/` on `ℤ` is Euclidean division, which is floor division for the
positive divisors appearing here). -/

/-- Kernel-computable form of `calculateScore`. -/
def intScore (p d n : Nat) : Int :=
  let ds : Int := if n = 0 then 1000 else (1000 * (n : Int) - 1000 * (p : Int)) / (n : Int)
  let t : Int := ds * (10 - (d : Int)) / 10
  if t < 0 then 0 else t

theorem floor_max_zero (q : ℚ) : ⌊max q 0⌋ = max ⌊q⌋ 0 := by
  rcases le_total q 0 with h | h
  · rw [max_eq_right h, max_eq_right]
    · exact Int.floor_zero
    · calc ⌊q⌋ ≤ ⌊(0 : ℚ)⌋ := Int.floor_le_floor h
        _ = 0 := Int.floor_zero
  · rw [max_eq_left h, max_eq_left]
    calc (0 : ℤ) = ⌊(0 : ℚ)⌋ := Int.floor_zero.symm
      _ ≤ ⌊q⌋ := Int.floor_le_floor h

theorem max_zero_eq_ite (x : ℤ) : max x 0 = if x < 0 then 0 else x := by
  rcases le_or_lt 0 x with h | h
  · rw [max_eq_left h, if_neg (not_lt.mpr h)]
  · rw [max_eq_right h.le, if_pos h]

theorem calculateScore_eq_intScore (c : Comment) (n : Nat) :
    calculateScore c n = intScore c.position c.downvotes n := by
  simp only [calculateScore, intScore]
  have hds : ⌊(1000 : ℚ) - (c.position : ℚ) * 1000 / (n : ℚ)⌋ =
      (if n = 0 then (1000 : Int)
        else (1000 * (n : Int) - 1000 * (c.position : Int)) / (n : Int)) := by
    rcases Nat.eq_zero_or_pos n with h0 | hpos
    · subst h0
      norm_num
    · have hn : (n : ℚ) ≠ 0 := Nat.cast_ne_zero.mpr hpos.ne'
      rw [if_neg hpos.ne']
      have h : (1000 : ℚ) - (c.position : ℚ) * 1000 / (n : ℚ) =
          ((1000 * (n : Int) - 1000 * (c.position : Int) : Int) : ℚ) / ((n : Nat) : ℚ) := by
        field_simp
        ring
      rw [h, Rat.floor_intCast_div_natCast]
  rw [hds]
  set ds : Int := (if n = 0 then (1000 : Int)
    else (1000 * (n : Int) - 1000 * (c.position : Int)) / (n : Int)) with hdsdef
  have h2 : (ds : ℚ) - (ds : ℚ) / 10 * (c.downvotes : ℚ) =
      ((ds * (10 - (c.downvotes : Int)) : Int) : ℚ) / ((10 : Nat) : ℚ) := by
    push_cast
    ring
  rw [h2, floor_max_zero, Rat.floor_intCast_div_natCast, max_zero_eq_ite]
  norm_num

-- Scratch evaluation checks of the integer form.
example : intScore 1 0 3 = 666 := by decide
example : intScore 2 5 3 = 166 := by decide
example : intScore 0 0 3 = 1000 := by decide

/-- `assignLoop` with the kernel-computable score. -/
def intAssignLoop (rootId : String) (total : Nat) :
    List Comment → List Comment → Nat → Except String (List Comment)
  | done, [], _ => Except.ok done
  | done, c :: todo, counter =>
    match calculatePath rootId (done ++ c :: todo) counter c with
    | Except.error e => Except.error e
    | Except.ok (p, counter') =>
      intAssignLoop rootId total
        (done ++ [{ c with path := p, score := intScore c.position c.downvotes total }])
        todo counter'

theorem assignLoop_eq_intAssignLoop (rootId : String) (total : Nat) :
    ∀ (todo done : List Comment) (counter : Nat),
      assignLoop rootId total done todo counter = intAssignLoop rootId total done todo counter
  | [], _, _ => rfl
  | c :: todo, done, counter => by
    simp only [assignLoop, intAssignLoop]
    cases calculatePath rootId (done ++ c :: todo) counter c with
    | error e => rfl
    | ok pc =>
      rw [calculateScore_eq_intScore]
      exact assignLoop_eq_intAssignLoop rootId total todo _ pc.2

/-- `extractComments` with the kernel-computable score: used to evaluate
the pipeline on concrete inputs. -/
def intExtract (tree : CommentTree) (dom : DomMap) : Except String (List Comment) :=
  let flat := mergedComments tree dom
  intAssignLoop tree.id flat.length [] flat 1

theorem extractComments_eq_intExtract (tree : CommentTree) (dom : DomMap) :
    extractComments tree dom = intExtract tree dom :=
  assignLoop_eq_intAssignLoop _ _ _ _ _

/-! ## The concrete scenario of the spec's test property

Root story `"S"` with children `A` (DOM position 0, 0 downvotes),
`B` (position 1, 0 downvotes) having child `C` (position 2, 5 downvotes),
and `D` flagged, i.e. absent from the DOM map. -/

def c1Tree : CommentTree :=
  CommentTree.node "S" "story" "op"
    [CommentTree.node "A" "comment" "ua" [],
     CommentTree.node "B" "comment" "ub" [CommentTree.node "C" "comment" "uc" []],
     CommentTree.node "D" "comment" "ud" []]

def c1Dom : DomMap :=
  [("A", { position := 0, text := "ta", downvotes := 0 }),
   ("B", { position := 1, text := "tb", downvotes := 0 }),
   ("C", { position := 2, text := "tc", downvotes := 5 })]

def c1A : Comment :=
  { id := "A", author := "ua", replies := 0, position := 0, text := "ta",
    downvotes := 0, parentId := some "S", path := "1", score := 1000 }

def c1B : Comment :=
  { id := "B", author := "ub", replies := 1, position := 1, text := "tb",
    downvotes := 0, parentId := some "S", path := "2", score := 666 }

def c1C : Comment :=
  { id := "C", author := "uc", replies := 0, position := 2, text := "tc",
    downvotes := 5, parentId := some "B", path := "2.1", score := 166 }

def c1Output : List Comment := [c1A, c1B, c1C]

theorem c1_pipeline : extractComments c1Tree c1Dom = Except.ok c1Output := by
  rw [extractComments_eq_intExtract]
  rfl

/-- C1 (counterexample): on the spec's concrete scenario the pipeline does
return the three comments `A`, `B`, `C` with paths `"1"`, `"2"`, `"2.1"`,
but the scores are `1000`, `666`, `166` — not `1000`, `667`, `167` as the
claim states: `Math.floor` is applied to the whole expression
`1000 - position * 1000 / total`, so `B` gets `⌊1000 - 1000/3⌋ = 666`
(the spec computed `1000 - ⌊1000/3⌋ = 667`), and `C` gets
`⌊max (333 - 33.3 * 5) 0⌋ = 166`. -/
theorem claim1_counterexample :
    ∃ out, extractComments c1Tree c1Dom = Except.ok out ∧
      out.map (fun c => (c.id, c.path, c.score)) ≠
        [("A", "1", (1000 : Int)), ("B", "2", 667), ("C", "2.1", 167)] :=
  ⟨c1Output, c1_pipeline, by decide⟩

/-- C1 (amended): the scenario returns exactly the three comments `A`, `B`,
`C` with paths `"1"`, `"2"`, `"2.1"` and scores `1000`, `666`, `166`
(`B = ⌊1000 - 1*1000/3⌋ = 666`; `C`: `defaultScore = ⌊1000 - 2*1000/3⌋ =
333`, penalty `333/10*5 = 166.5`, score `⌊333 - 166.5⌋ = 166`). -/
theorem claim1 :
    ∃ out, extractComments c1Tree c1Dom = Except.ok out ∧
      out.map (fun c => (c.id, c.path, c.score)) =
        [("A", "1", (1000 : Int)), ("B", "2", 666), ("C", "2.1", 166)] :=
  ⟨c1Output, c1_pipeline, by decide⟩

/-! ## C2: a node absent from the DOM map is skipped with its subtree -/

mutual

theorem flatten_mem_dom (dom : DomMap) :
    ∀ (t : CommentTree) (pid : Option String) (c : Comment),
      c ∈ flattenCommentTree dom t pid → lookupDom dom c.id ≠ none
  | CommentTree.node i ty au ch, pid, c => by
    intro hc
    simp only [flattenCommentTree] at hc
    by_cases hty : ty = "story"
    · rw [if_pos hty] at hc
      exact flattenChildren_mem_dom dom ch i c hc
    · rw [if_neg hty] at hc
      cases hl : lookupDom dom i with
      | none =>
        rw [hl] at hc
        cases hc
      | some d =>
        rw [hl] at hc
        rcases List.mem_cons.mp hc with h | h
        · subst h
          show lookupDom dom i ≠ none
          rw [hl]
          exact fun h => Option.noConfusion h
        · exact flattenChildren_mem_dom dom ch i c h

theorem flattenChildren_mem_dom (dom : DomMap) :
    ∀ (ts : List CommentTree) (pidStr : String) (c : Comment),
      c ∈ flattenChildren dom ts pidStr → lookupDom dom c.id ≠ none
  | [], _, c => by
    intro hc
    simp only [flattenChildren] at hc
    cases hc
  | t :: ts, pidStr, c => by
    intro hc
    simp only [flattenChildren] at hc
    rcases List.mem_append.mp hc with h | h
    · exact flatten_mem_dom dom t (some pidStr) c h
    · exact flattenChildren_mem_dom dom ts pidStr c h

end

/-- C2: for every DOM map, an API comment node (non-story) whose id is
absent from the DOM map contributes nothing to the output — neither the
node itself nor any of its descendants, even descendants present in the
DOM map, since the traversal does not recurse into a missing node's
children (`flattenCommentTree dom t pid = []`); conversely every emitted
comment's id is present in the DOM map. -/
theorem claim2 (dom : DomMap) (t : CommentTree) (pid : Option String) :
    (t.ty ≠ "story" → lookupDom dom t.id = none → flattenCommentTree dom t pid = []) ∧
      ∀ c ∈ flattenCommentTree dom t pid, lookupDom dom c.id ≠ none := by
  constructor
  · intro hty hdom
    cases t with
    | node i ity au ch =>
      simp only [CommentTree.ty] at hty
      simp only [CommentTree.id] at hdom
      simp only [flattenCommentTree, if_neg hty, hdom]
  · exact flatten_mem_dom dom t pid

/-- Witness for C2 at the concrete scenario: node `D` is absent from the
DOM map, so its subtree is dropped entirely. -/
theorem claim2_witness :
    flattenCommentTree c1Dom (CommentTree.node "D" "comment" "ud"
      [CommentTree.node "C" "comment" "uc" []]) (some "S") = [] :=
  (claim2 c1Dom (CommentTree.node "D" "comment" "ud"
    [CommentTree.node "C" "comment" "uc" []]) (some "S")).1 (by decide) (by decide)

/-! ## C9: determinism -/

/-- C9: `extractComments` is deterministic — identical API-tree and DOM-map
inputs give identical outputs.  The source keeps no state across
invocations: `flatComments`, `apiComments`, `skippedComments` and
`topLevelCounter` are all local to one call, the sort and traversal order
are fully determined by the inputs, and nothing reads time or randomness;
accordingly the embedding is a pure function and determinism is
reflexivity of equality on equal arguments. -/
theorem claim9 (t t' : CommentTree) (d d' : DomMap) (ht : t = t') (hd : d = d') :
    extractComments t d = extractComments t' d' := by
  subst ht
  subst hd
  rfl

/-- Witness for C9 at the concrete scenario. -/
theorem claim9_witness : extractComments c1Tree c1Dom = extractComments c1Tree c1Dom :=
  claim9 c1Tree c1Tree c1Dom c1Dom rfl rfl

/-! ## C7 and C10: properties of the score formula -/

/-- The `defaultScore` computed by `calculateScore`. -/
def defaultScoreInt (p n : Nat) : Int :=
  ⌊(1000 : ℚ) - (p : ℚ) * 1000 / (n : ℚ)⌋

theorem calculateScore_eq_floor (c : Comment) (n : Nat) :
    calculateScore c n =
      ⌊max ((defaultScoreInt c.position n : ℚ) * (1 - (c.downvotes : ℚ) / 10)) 0⌋ := by
  simp only [calculateScore, defaultScoreInt]
  congr 2
  ring

theorem defaultScoreInt_le (p n : Nat) : defaultScoreInt p n ≤ 1000 := by
  have h : (1000 : ℚ) - (p : ℚ) * 1000 / (n : ℚ) ≤ 1000 := by
    have hp : (0 : ℚ) ≤ (p : ℚ) * 1000 / (n : ℚ) := by positivity
    linarith
  calc defaultScoreInt p n ≤ ⌊(1000 : ℚ)⌋ := Int.floor_le_floor h
    _ = 1000 := by norm_num

theorem defaultScoreInt_anti {p p' : Nat} (n : Nat) (hn : 0 < n) (h : p ≤ p') :
    defaultScoreInt p' n ≤ defaultScoreInt p n := by
  apply Int.floor_le_floor
  have hq : (0 : ℚ) < (n : ℚ) := by exact_mod_cast hn
  have hpq : (p : ℚ) ≤ (p' : ℚ) := by exact_mod_cast h
  have hdiv : (p : ℚ) * 1000 / (n : ℚ) ≤ (p' : ℚ) * 1000 / (n : ℚ) := by gcongr
  linarith

/-- C7: with `totalCount` fixed and positive and downvote levels in the
DOM range `[0,9]`, the score is monotonically non-increasing in
`displayPosition` at fixed downvote level, monotonically non-increasing in
the downvote level at fixed `displayPosition`, and always lies in
`[0, 1000]`. -/
theorem claim7 (a b : Comment) (n : Nat) (hn : 0 < n)
    (ha9 : a.downvotes ≤ 9) (hb9 : b.downvotes ≤ 9) :
    (a.downvotes = b.downvotes → a.position ≤ b.position →
        calculateScore b n ≤ calculateScore a n) ∧
      (a.position = b.position → a.downvotes ≤ b.downvotes →
        calculateScore b n ≤ calculateScore a n) ∧
      (0 ≤ calculateScore a n ∧ calculateScore a n ≤ 1000) := by
  have hfac : ∀ d : Nat, d ≤ 9 → (0 : ℚ) ≤ 1 - (d : ℚ) / 10 := by
    intro d hd
    have : (d : ℚ) ≤ 9 := by exact_mod_cast hd
    linarith
  have hfac1 : ∀ d : Nat, 1 - (d : ℚ) / 10 ≤ 1 := by
    intro d
    have : (0 : ℚ) ≤ (d : ℚ) := by positivity
    linarith
  refine ⟨?_, ?_, ?_, ?_⟩
  · intro hdv hpos
    rw [calculateScore_eq_floor, calculateScore_eq_floor, hdv]
    apply Int.floor_le_floor
    apply max_le_max _ (le_refl _)
    apply mul_le_mul_of_nonneg_right _ (hfac _ hb9)
    exact_mod_cast defaultScoreInt_anti n hn hpos
  · intro hpos hdv
    rw [calculateScore_eq_floor, calculateScore_eq_floor, hpos]
    set ds : Int := defaultScoreInt b.position n with hds
    rcases le_or_lt 0 ds with hd0 | hd0
    · apply Int.floor_le_floor
      apply max_le_max _ (le_refl _)
      apply mul_le_mul_of_nonneg_left _ (by exact_mod_cast hd0)
      have : (a.downvotes : ℚ) ≤ (b.downvotes : ℚ) := by exact_mod_cast hdv
      linarith
    · have hz : ∀ d : Nat, d ≤ 9 → max ((ds : ℚ) * (1 - (d : ℚ) / 10)) 0 = 0 := by
        intro d hd
        apply max_eq_right
        apply mul_nonpos_iff.mpr
        exact Or.inr ⟨by exact_mod_cast hd0.le, hfac d hd⟩
      rw [hz _ ha9, hz _ hb9]
  · rw [calculateScore_eq_floor]
    have : ((0 : Int) : ℚ) ≤ max ((defaultScoreInt a.position n : ℚ) *
        (1 - (a.downvotes : ℚ) / 10)) 0 := by
      exact_mod_cast le_max_right _ _
    calc (0 : Int) = ⌊((0 : Int) : ℚ)⌋ := (Int.floor_intCast 0).symm
      _ ≤ _ := Int.floor_le_floor this
  · rw [calculateScore_eq_floor]
    have hle : max ((defaultScoreInt a.position n : ℚ) *
        (1 - (a.downvotes : ℚ) / 10)) 0 ≤ 1000 := by
      apply max_le _ (by norm_num)
      set ds : Int := defaultScoreInt a.position n with hds
      rcases le_or_lt 0 ds with hd0 | hd0
      · have h1 : (ds : ℚ) * (1 - (a.downvotes : ℚ) / 10) ≤ (ds : ℚ) * 1 :=
          mul_le_mul_of_nonneg_left (hfac1 _) (by exact_mod_cast hd0)
        have h2 : (ds : ℚ) ≤ 1000 := by exact_mod_cast defaultScoreInt_le a.position n
        linarith
      · have h1 : (ds : ℚ) * (1 - (a.downvotes : ℚ) / 10) ≤ 0 :=
          mul_nonpos_iff.mpr (Or.inr ⟨by exact_mod_cast hd0.le, hfac _ ha9⟩)
        linarith
    calc ⌊max ((defaultScoreInt a.position n : ℚ) * (1 - (a.downvotes : ℚ) / 10)) 0⌋
        ≤ ⌊(1000 : ℚ)⌋ := Int.floor_le_floor hle
      _ = 1000 := by norm_num

/-- A concrete comment at position 1 with downvote level 2. -/
def wComment1 : Comment :=
  { id := "x", author := "", replies := 0, position := 1, text := "",
    downvotes := 2, parentId := none, path := "", score := 0 }

/-- A concrete comment at position 2 with downvote level 2. -/
def wComment2 : Comment :=
  { id := "y", author := "", replies := 0, position := 2, text := "",
    downvotes := 2, parentId := none, path := "", score := 0 }

/-- A concrete comment at position 5 with downvote level 1. -/
def wComment5 : Comment :=
  { id := "z", author := "", replies := 0, position := 5, text := "",
    downvotes := 1, parentId := none, path := "", score := 0 }

/-- Witness for C7 at concrete comments (positions 1 and 2, equal downvote
levels, total 3). -/
theorem claim7_witness : calculateScore wComment2 3 ≤ calculateScore wComment1 3 :=
  (claim7 wComment1 wComment2 3 (by decide) (by decide) (by decide)).1 rfl (by decide)

/-- C10: a comment whose display position is at least the total survivor
count (possible, since DOM positions index all rendered rows including
flagged ones) scores exactly `0`: the position term drives `defaultScore`
to `≤ 0`, and the `max(..., 0)` clamp then forces the floored result to
`0`. -/
theorem claim10 (c : Comment) (n : Nat) (hn : 0 < n) (hp : n ≤ c.position)
    (hd : c.downvotes ≤ 9) : calculateScore c n = 0 := by
  rw [calculateScore_eq_floor]
  have hq : (0 : ℚ) < (n : ℚ) := by exact_mod_cast hn
  have hds : defaultScoreInt c.position n ≤ 0 := by
    have hnp : (n : ℚ) ≤ (c.position : ℚ) := by exact_mod_cast hp
    have h1 : (1000 : ℚ) ≤ (c.position : ℚ) * 1000 / (n : ℚ) := by
      rw [le_div_iff₀ hq]
      nlinarith
    have h2 : (1000 : ℚ) - (c.position : ℚ) * 1000 / (n : ℚ) ≤ 0 := by linarith
    calc defaultScoreInt c.position n ≤ ⌊(0 : ℚ)⌋ := Int.floor_le_floor h2
      _ = 0 := Int.floor_zero
  have hfac : (0 : ℚ) ≤ 1 - (c.downvotes : ℚ) / 10 := by
    have : (c.downvotes : ℚ) ≤ 9 := by exact_mod_cast hd
    linarith
  have hval : (defaultScoreInt c.position n : ℚ) * (1 - (c.downvotes : ℚ) / 10) ≤ 0 :=
    mul_nonpos_iff.mpr (Or.inr ⟨by exact_mod_cast hds, hfac⟩)
  rw [max_eq_right hval, Int.floor_zero]

/-- Witness for C10: position 5 with total 3 scores 0. -/
theorem claim10_witness : calculateScore wComment5 3 = 0 :=
  claim10 wComment5 3 (by decide) (by decide) (by decide)

/-! ## Structure of a successful path/score pass -/

/-- The fields of a comment that the pass never modifies. -/
def SameKey (a b : Comment) : Prop :=
  a.id = b.id ∧ a.parentId = b.parentId ∧ a.position = b.position

theorem sameKey_update (c : Comment) (p : String) (s : Int) :
    SameKey c { c with path := p, score := s } :=
  ⟨rfl, rfl, rfl⟩

theorem forall₂_sameKey_maps {xs ys : List Comment} (h : List.Forall₂ SameKey xs ys) :
    xs.map Comment.id = ys.map Comment.id ∧
      xs.map Comment.parentId = ys.map Comment.parentId ∧
      xs.map Comment.position = ys.map Comment.position := by
  induction h with
  | nil => exact ⟨rfl, rfl, rfl⟩
  | cons hab _ ih =>
    refine ⟨?_, ?_, ?_⟩ <;> simp [hab.1, hab.2.1, hab.2.2, ih.1, ih.2.1, ih.2.2]

/-- A successful pass maps each pending comment to an output comment with
the same id, parentId and position, in order, after the already-processed
prefix. -/
theorem assignLoop_ok_shape (rootId : String) (total : Nat) :
    ∀ (todo done : List Comment) (k : Nat) (l : List Comment),
      assignLoop rootId total done todo k = Except.ok l →
      ∃ rest, l = done ++ rest ∧ List.Forall₂ SameKey todo rest
  | [], done, k, l => by
    intro h
    simp only [assignLoop] at h
    cases h
    exact ⟨[], by simp, List.Forall₂.nil⟩
  | c :: todo, done, k, l => by
    intro h
    simp only [assignLoop] at h
    cases hcp : calculatePath rootId (done ++ c :: todo) k c with
    | error e =>
      rw [hcp] at h
      cases h
    | ok pc =>
      obtain ⟨p, k'⟩ := pc
      rw [hcp] at h
      obtain ⟨rest, hl, hf⟩ := assignLoop_ok_shape rootId total todo _ k' l h
      refine ⟨{ c with path := p, score := calculateScore c total } :: rest, ?_, ?_⟩
      · rw [hl]
        simp
      · exact List.Forall₂.cons (sameKey_update c p _) hf

/-- C4: every list returned by `extractComments` is sorted non-decreasing
by display position: the merge result is stable-sorted by position before
the path/score pass, and the pass preserves each comment's position. -/
theorem claim4 (tree : CommentTree) (dom : DomMap) (l : List Comment)
    (h : extractComments tree dom = Except.ok l) :
    l.Pairwise (fun a b => a.position ≤ b.position) := by
  simp only [extractComments] at h
  obtain ⟨rest, hl, hf⟩ := assignLoop_ok_shape _ _ _ _ _ _ h
  have hmap : (mergedComments tree dom).map Comment.position = l.map Comment.position := by
    rw [hl]
    simpa using (forall₂_sameKey_maps hf).2.2
  have hsorted : (mergedComments tree dom).Pairwise posLe :=
    List.sorted_insertionSort posLe (flattenCommentTree dom tree none)
  have h1 : ((mergedComments tree dom).map Comment.position).Pairwise (· ≤ ·) :=
    List.pairwise_map.mpr hsorted
  rw [hmap] at h1
  exact List.pairwise_map.mp h1

/-- Witness for C4 at the concrete scenario. -/
theorem claim4_witness :
    c1Output.Pairwise (fun a b => a.position ≤ b.position) :=
  claim4 c1Tree c1Dom c1Output c1_pipeline

/-! ## C5: top-level paths are the counter sequence -/

/-- `comment.parentId === commentsTree.id`: the top-level test of
`calculatePath`. -/
def isTop (rootId : String) (c : Comment) : Bool := c.parentId = some rootId

theorem calculatePath_top {rootId : String} {c : Comment} (arr : List Comment) (k : Nat)
    (htop : c.parentId = some rootId) :
    calculatePath rootId arr k c = Except.ok (toString k, k + 1) := by
  simp [calculatePath, htop]

theorem calculatePath_nontop_counter {rootId : String} {c : Comment} {arr : List Comment}
    {k : Nat} {pc : String × Nat} (hntop : c.parentId ≠ some rootId)
    (h : calculatePath rootId arr k c = Except.ok pc) : pc.2 = k := by
  simp only [calculatePath, if_neg hntop] at h
  cases hf : List.find? (fun x => some x.id = c.parentId) arr with
  | none =>
    rw [hf] at h
    cases h
  | some parent =>
    rw [hf] at h
    cases h
    rfl

theorem assignLoop_topLevel_paths (rootId : String) (total : Nat) :
    ∀ (todo done : List Comment) (k : Nat) (l : List Comment),
      assignLoop rootId total done todo k = Except.ok l →
      (l.filter (isTop rootId)).map Comment.path =
        (done.filter (isTop rootId)).map Comment.path ++
          (List.range (todo.countP (isTop rootId))).map (fun i => toString (k + i))
  | [], done, k, l => by
    intro h
    simp only [assignLoop] at h
    cases h
    simp
  | c :: todo, done, k, l => by
    intro h
    simp only [assignLoop] at h
    by_cases htop : c.parentId = some rootId
    · rw [calculatePath_top (done ++ c :: todo) k htop] at h
      have ih := assignLoop_topLevel_paths rootId total todo
        (done ++ [{ c with path := toString k, score := calculateScore c total }]) (k + 1) l h
      rw [ih]
      have htc : isTop rootId { c with path := toString k, score := calculateScore c total } =
          true := by
        simp [isTop, htop]
      have hfil : List.filter (isTop rootId)
            (done ++ [{ c with path := toString k, score := calculateScore c total }]) =
          List.filter (isTop rootId) done ++
            [{ c with path := toString k, score := calculateScore c total }] := by
        simp [List.filter_append, htc]
      rw [hfil]
      have hcnt : (c :: todo).countP (isTop rootId) = todo.countP (isTop rootId) + 1 := by
        rw [List.countP_cons]
        simp [isTop, htop]
      rw [hcnt, List.map_append, List.append_assoc, List.range_succ_eq_map]
      congr 1
      simp only [List.map_cons, List.map_nil, List.map_map, List.nil_append, Nat.add_zero,
        List.singleton_append]
      congr 1
      apply List.map_congr_left
      intro i _
      simp only [Function.comp_apply]
      congr 1
      omega
    · cases hcp : calculatePath rootId (done ++ c :: todo) k c with
      | error e =>
        rw [hcp] at h
        cases h
      | ok pc =>
        obtain ⟨p, k'⟩ := pc
        have hk : k' = k := calculatePath_nontop_counter htop hcp
        rw [hcp, hk] at h
        have ih := assignLoop_topLevel_paths rootId total todo
          (done ++ [{ c with path := p, score := calculateScore c total }]) k l h
        rw [ih]
        have htc : isTop rootId { c with path := p, score := calculateScore c total } =
            false := by
          simp [isTop, htop]
        have hfil : List.filter (isTop rootId)
              (done ++ [{ c with path := p, score := calculateScore c total }]) =
            List.filter (isTop rootId) done := by
          simp [List.filter_append, htc]
        rw [hfil]
        have hcnt : (c :: todo).countP (isTop rootId) = todo.countP (isTop rootId) := by
          rw [List.countP_cons]
          simp [isTop, htop]
        rw [hcnt]

/-- C5: in every returned list, the paths of the top-level comments (those
whose `parentId` is the root Story id), read in output order — which is
displayPosition order — are exactly `"1"`, `"2"`, `"3"`, …, with no gaps
and no repeats: they come from a monotonically incremented counter. -/
theorem claim5 (tree : CommentTree) (dom : DomMap) (l : List Comment)
    (h : extractComments tree dom = Except.ok l) :
    (l.filter (isTop tree.id)).map Comment.path =
      (List.range ((l.filter (isTop tree.id)).length)).map (fun i => toString (i + 1)) := by
  simp only [extractComments] at h
  have hmain := assignLoop_topLevel_paths tree.id (mergedComments tree dom).length
    (mergedComments tree dom) [] 1 l h
  simp only [List.filter_nil, List.map_nil, List.nil_append] at hmain
  obtain ⟨rest, hl, hf⟩ := assignLoop_ok_shape _ _ _ _ _ _ h
  have hpid : (mergedComments tree dom).map Comment.parentId = l.map Comment.parentId := by
    rw [hl]
    simpa using (forall₂_sameKey_maps hf).2.1
  have hq : ∀ xs : List Comment, xs.countP (isTop tree.id) =
      (xs.map Comment.parentId).countP (fun pid => pid = some tree.id) := by
    intro xs
    rw [List.countP_map]
    rfl
  have hcnt : (mergedComments tree dom).countP (isTop tree.id) =
      (l.filter (isTop tree.id)).length := by
    rw [← List.countP_eq_length_filter, hq, hq, hpid]
  rw [hmain, hcnt]
  apply List.map_congr_left
  intro i _
  congr 1
  omega

/-- Witness for C5 at the concrete scenario. -/
theorem claim5_witness :
    (c1Output.filter (isTop c1Tree.id)).map Comment.path =
      (List.range ((c1Output.filter (isTop c1Tree.id)).length)).map
        (fun i => toString (i + 1)) :=
  claim5 c1Tree c1Dom c1Output c1_pipeline

/-! ## C3: a dangling parent reference aborts the invocation -/

/-- If the pass succeeds, then every pending non-top-level comment's
`parentId` was resolved by `find` against the current array, whose ids are
those of `done ++ todo`. -/
theorem assignLoop_ok_parent (rootId : String) (total : Nat) :
    ∀ (todo done : List Comment) (k : Nat) (l : List Comment),
      assignLoop rootId total done todo k = Except.ok l →
      ∀ c ∈ todo, c.parentId ≠ some rootId →
        ∃ x ∈ done ++ todo, some x.id = c.parentId
  | [], _, _, _ => by
    intro _ c hc
    cases hc
  | c0 :: todo, done, k, l => by
    intro h c hc hntop
    simp only [assignLoop] at h
    cases hcp : calculatePath rootId (done ++ c0 :: todo) k c0 with
    | error e =>
      rw [hcp] at h
      cases h
    | ok pc =>
      rcases List.mem_cons.mp hc with hc0 | hcm
      · subst hc0
        simp only [calculatePath, if_neg hntop] at hcp
        cases hf : List.find? (fun x => some x.id = c.parentId) (done ++ c :: todo) with
        | none =>
          rw [hf] at hcp
          cases hcp
        | some x =>
          refine ⟨x, List.mem_of_find?_eq_some hf, ?_⟩
          have := List.find?_some hf
          exact of_decide_eq_true this
      · obtain ⟨p, k'⟩ := pc
        rw [hcp] at h
        obtain ⟨x, hx, hxid⟩ := assignLoop_ok_parent rootId total todo
          (done ++ [{ c0 with path := p, score := calculateScore c0 total }]) k' l h c hcm hntop
        rcases List.mem_append.mp hx with hx' | hx'
        · rcases List.mem_append.mp hx' with hxd | hxs
          · exact ⟨x, List.mem_append_left _ hxd, hxid⟩
          · have hxe : x = { c0 with path := p, score := calculateScore c0 total } := by
              simpa using hxs
            refine ⟨c0, List.mem_append_right _ (List.mem_cons_self _ _), ?_⟩
            rw [hxe] at hxid
            exact hxid
        · exact ⟨x, List.mem_append_right _ (List.mem_cons_of_mem _ hx'), hxid⟩

/-- C3: if a surviving comment's `parentId` is neither the root Story id
nor the id of any surviving comment (in particular of any *other*
surviving comment — under the data model a comment never carries its own
id as `parentId`), then the path-assignment step's `find` comes up empty
and `calculatePath` throws `Parent comment not found`, aborting the whole
invocation: `extractComments` returns an error and emits no list at all,
so no comment with a dangling or fabricated path and no silent default is
ever produced. -/
theorem claim3 (tree : CommentTree) (dom : DomMap) (c : Comment)
    (hc : c ∈ mergedComments tree dom)
    (hntop : c.parentId ≠ some tree.id)
    (hnores : ∀ x ∈ mergedComments tree dom, some x.id ≠ c.parentId) :
    ∃ e, extractComments tree dom = Except.error e := by
  cases hres : extractComments tree dom with
  | error e => exact ⟨e, rfl⟩
  | ok l =>
    exfalso
    simp only [extractComments] at hres
    obtain ⟨x, hx, hxid⟩ := assignLoop_ok_parent tree.id (mergedComments tree dom).length
      (mergedComments tree dom) [] 1 l hres c hc hntop
    rw [List.nil_append] at hx
    exact hnores x hx hxid

/-- Concrete input for the C3 witness: the root's child is itself marked
`story` (a shape the merge does not guard against), so its child `A`
survives with `parentId = "T"` while no surviving comment has id `"T"`. -/
def c3Tree : CommentTree :=
  CommentTree.node "S" "story" "op"
    [CommentTree.node "T" "story" "t" [CommentTree.node "A" "comment" "a" []]]

def c3Dom : DomMap := [("A", { position := 0, text := "ta", downvotes := 0 })]

def c3Comment : Comment :=
  { id := "A", author := "a", replies := 0, position := 0, text := "ta",
    downvotes := 0, parentId := some "T", path := "", score := 0 }

/-- Witness for C3: on `c3Tree`/`c3Dom` the hypotheses hold and the
invocation aborts with an error. -/
theorem claim3_witness : ∃ e, extractComments c3Tree c3Dom = Except.error e :=
  claim3 c3Tree c3Dom c3Comment (by decide) (by decide) (by decide)

/-! ## C8: parent linkage in the output -/

theorem forall₂_mem_right {R : Comment → Comment → Prop} :
    ∀ {xs ys : List Comment}, List.Forall₂ R xs ys → ∀ b ∈ ys, ∃ a ∈ xs, R a b := by
  intro xs ys h
  induction h with
  | nil => intro b hb; cases hb
  | cons hab _ ih =>
    intro b hb
    rcases List.mem_cons.mp hb with hb' | hb'
    · exact ⟨_, List.mem_cons_self _ _, hb' ▸ hab⟩
    · obtain ⟨a, ha, hr⟩ := ih b hb'
      exact ⟨a, List.mem_cons_of_mem _ ha, hr⟩

theorem forall₂_mem_left {R : Comment → Comment → Prop} :
    ∀ {xs ys : List Comment}, List.Forall₂ R xs ys → ∀ a ∈ xs, ∃ b ∈ ys, R a b := by
  intro xs ys h
  induction h with
  | nil => intro a ha; cases ha
  | cons hab _ ih =>
    intro a ha
    rcases List.mem_cons.mp ha with ha' | ha'
    · exact ⟨_, List.mem_cons_self _ _, ha' ▸ hab⟩
    · obtain ⟨b, hb, hr⟩ := ih a ha'
      exact ⟨b, List.mem_cons_of_mem _ hb, hr⟩

/-- In a list with pairwise-distinct ids, a member is determined by its id. -/
theorem eq_of_mem_of_id_eq :
    ∀ {l : List Comment}, l.Pairwise (fun a b => a.id ≠ b.id) →
      ∀ {p q : Comment}, p ∈ l → q ∈ l → p.id = q.id → p = q := by
  intro l hl
  induction l with
  | nil =>
    intro p q hp
    cases hp
  | cons a t ih =>
    intro p q hp hq hid
    obtain ⟨ha, ht⟩ := List.pairwise_cons.mp hl
    rcases List.mem_cons.mp hp with hp' | hp' <;> rcases List.mem_cons.mp hq with hq' | hq'
    · rw [hp', hq']
    · exact absurd hid (hp' ▸ ha q hq')
    · exact absurd hid.symm (hq' ▸ ha p hp')
    · exact ih ht hp' hq' hid

/-- Forward transfer of parent existence from a successful run to the
returned list. -/
theorem extract_ok_parent_mem (tree : CommentTree) (dom : DomMap) (l : List Comment)
    (h : extractComments tree dom = Except.ok l) :
    ∀ c ∈ l, c.parentId ≠ some tree.id → ∃ x ∈ l, some x.id = c.parentId := by
  intro c hcl hntop
  have h' := h
  simp only [extractComments] at h'
  obtain ⟨rest, hl, hf⟩ := assignLoop_ok_shape _ _ _ _ _ _ h'
  rw [List.nil_append] at hl
  subst hl
  obtain ⟨c₀, hc₀, hk₀⟩ := forall₂_mem_right hf c hcl
  have hc₀ntop : c₀.parentId ≠ some tree.id := by
    rw [hk₀.2.1]
    exact hntop
  obtain ⟨x, hx, hxid⟩ := assignLoop_ok_parent tree.id (mergedComments tree dom).length
    (mergedComments tree dom) [] 1 l h' c₀ hc₀ hc₀ntop
  rw [List.nil_append] at hx
  obtain ⟨x₂, hx₂, hkx⟩ := forall₂_mem_left hf x hx
  refine ⟨x₂, hx₂, ?_⟩
  rw [← hkx.1, hxid, hk₀.2.1]

/-- C8 (counterexample data): a story root `"S"` with a single surviving
child `A`. -/
def c8Tree : CommentTree :=
  CommentTree.node "S" "story" "op" [CommentTree.node "A" "comment" "a" []]

def c8Dom : DomMap := [("A", { position := 0, text := "t", downvotes := 0 })]

def c8A : Comment :=
  { id := "A", author := "a", replies := 0, position := 0, text := "t",
    downvotes := 0, parentId := some "S", path := "1", score := 1000 }

def c8Output : List Comment := [c8A]

/-- C8 (counterexample): in the returned output a top-level comment's
`parentId` is the root Story id `some "S"`, not `null` — nothing in
`extractComments` replaces the root id by `null`; the initial `null` is
passed only for the story node itself, which is never emitted. -/
theorem claim8_counterexample :
    extractComments c8Tree c8Dom = Except.ok c8Output ∧
      isTop c8Tree.id c8A = true ∧ c8A.parentId ≠ none := by
  refine ⟨?_, by decide, by decide⟩
  rw [extractComments_eq_intExtract]
  rfl

/-- C8 (amended): in every returned output with pairwise-distinct ids in
which every child renders after its parent, no comment has a `null`
(`none`) `parentId`: a top-level comment carries the root Story id as its
`parentId`, and every other comment's `parentId` equals the id of exactly
one other output comment (no dangling and no ambiguous references). -/
theorem claim8 (tree : CommentTree) (dom : DomMap) (l : List Comment)
    (h : extractComments tree dom = Except.ok l)
    (hnd : l.Pairwise (fun a b => a.id ≠ b.id))
    (hpos : ∀ c ∈ l, ∀ p ∈ l, c.parentId = some p.id → p.position < c.position) :
    ∀ c ∈ l, c.parentId ≠ none ∧
      (c.parentId = some tree.id ∨
        ∃ p ∈ l, p ≠ c ∧ some p.id = c.parentId ∧
          ∀ q ∈ l, some q.id = c.parentId → q = p) := by
  intro c hcl
  by_cases hntop : c.parentId = some tree.id
  · refine ⟨?_, Or.inl hntop⟩
    rw [hntop]
    exact fun hn => Option.noConfusion hn
  · obtain ⟨p, hp, hpid⟩ := extract_ok_parent_mem tree dom l h c hcl hntop
    have hppos : p.position < c.position := hpos c hcl p hp hpid.symm
    have hpc : p ≠ c := fun he => absurd (he ▸ hppos) (lt_irrefl _)
    refine ⟨?_, Or.inr ⟨p, hp, hpc, hpid, ?_⟩⟩
    · rw [← hpid]
      exact fun hn => Option.noConfusion hn
    · intro q hq hqid
      exact eq_of_mem_of_id_eq hnd hq hp (Option.some.inj (hqid.trans hpid.symm))

/-- Witness for C8 (amended) at the single-comment scenario. -/
theorem claim8_witness :
    c8A.parentId ≠ none ∧
      (c8A.parentId = some c8Tree.id ∨
        ∃ p ∈ c8Output, p ≠ c8A ∧ some p.id = c8A.parentId ∧
          ∀ q ∈ c8Output, some q.id = c8A.parentId → q = p) :=
  claim8 c8Tree c8Dom c8Output
    (by rw [extractComments_eq_intExtract]; rfl) (by decide) (by decide)
    c8A (by decide)

/-! ## C6: sibling paths

`calculatePath` computes the suffix of a child path as the 1-based rank of
the comment, by id, among all comments sharing its `parentId`, in array
order.  `sibIdx` is that rank (0-based), fused from the source's
`filter`/`findIndex` combination. -/

def sibIdx : List Comment → Option String → String → Nat
  | [], _, _ => 0
  | x :: xs, pid, i =>
    if x.parentId = pid then
      if x.id = i then 0 else sibIdx xs pid i + 1
    else sibIdx xs pid i

theorem sibIdx_eq_findIdx (pid : Option String) (i : String) :
    ∀ arr : List Comment,
      (arr.filter (fun x => x.parentId = pid)).findIdx (fun x => x.id = i) =
        sibIdx arr pid i
  | [] => rfl
  | x :: xs => by
    simp only [List.filter_cons, sibIdx]
    by_cases hp : x.parentId = pid
    · by_cases hi : x.id = i
      · simp [hp, hi, List.findIdx_cons]
      · simp [hp, hi, List.findIdx_cons, sibIdx_eq_findIdx pid i xs]
    · simp [hp, sibIdx_eq_findIdx pid i xs]

theorem sibIdx_congr (pid : Option String) (i : String) :
    ∀ {xs ys : List Comment}, List.Forall₂ SameKey xs ys →
      sibIdx xs pid i = sibIdx ys pid i := by
  intro xs ys h
  induction h with
  | nil => rfl
  | cons hab _ ih =>
    simp only [sibIdx, hab.1, hab.2.1, ih]

theorem forall₂_sameKey_refl : ∀ xs : List Comment, List.Forall₂ SameKey xs xs
  | [] => List.Forall₂.nil
  | _ :: xs => List.Forall₂.cons ⟨rfl, rfl, rfl⟩ (forall₂_sameKey_refl xs)

theorem pairwise_ne_of_map_id_eq {xs ys : List Comment}
    (hmap : xs.map Comment.id = ys.map Comment.id)
    (h : xs.Pairwise (fun a b => a.id ≠ b.id)) :
    ys.Pairwise (fun a b => a.id ≠ b.id) := by
  have h1 : (xs.map Comment.id).Pairwise (· ≠ ·) := List.pairwise_map.mpr h
  rw [hmap] at h1
  exact List.pairwise_map.mp h1

/-- Every non-top-level element of `todo` has an id-match among the
elements that precede it in `before ++ todo`.  This is the invariant that
makes the source's in-place pass well-defined: a child's parent already
carries its final path when the child is processed. -/
def ParentsBefore (rootId : String) : List Comment → List Comment → Prop
  | _, [] => True
  | before, c :: rest =>
    (c.parentId ≠ some rootId → ∃ p ∈ before, some p.id = c.parentId) ∧
      ParentsBefore rootId (before ++ [c]) rest

theorem parentsBefore_congr (rootId : String) :
    ∀ (todo b b' : List Comment), List.Forall₂ SameKey b b' →
      ParentsBefore rootId b todo → ParentsBefore rootId b' todo
  | [], _, _ => by
    intro _ _
    trivial
  | c :: rest, b, b' => by
    intro hbb h
    obtain ⟨h1, h2⟩ := h
    refine ⟨?_, parentsBefore_congr rootId rest _ _
      (List.rel_append hbb (forall₂_sameKey_refl [c])) h2⟩
    intro hntop
    obtain ⟨p, hp, hpid⟩ := h1 hntop
    obtain ⟨p', hp', hk⟩ := forall₂_mem_left hbb p hp
    refine ⟨p', hp', ?_⟩
    rw [← hk.1]
    exact hpid

theorem calculatePath_nontop_none {rootId : String} {c : Comment} {arr : List Comment}
    (k : Nat) (hntop : c.parentId ≠ some rootId)
    (hf : List.find? (fun x => some x.id = c.parentId) arr = none) :
    calculatePath rootId arr k c =
      Except.error ("Parent comment not found for comment " ++ c.id) := by
  simp only [calculatePath, if_neg hntop, hf]

theorem calculatePath_nontop_of_find {rootId : String} {c q : Comment} {arr : List Comment}
    (k : Nat) (hntop : c.parentId ≠ some rootId)
    (hf : List.find? (fun x => some x.id = c.parentId) arr = some q) :
    calculatePath rootId arr k c =
      Except.ok (q.path ++ "." ++ toString (sibIdx arr c.parentId c.id + 1), k) := by
  simp only [calculatePath, if_neg hntop, hf]
  rw [sibIdx_eq_findIdx]

/-- Derivation of `ParentsBefore`: if every non-top-level element has an
id-match somewhere in the whole array, every match renders strictly before
its child, and the array is sorted by position, then every match is
strictly earlier in the array. -/
theorem parentsBefore_of_sorted (rootId : String) :
    ∀ (todo before : List Comment),
      (∀ c ∈ todo, c.parentId ≠ some rootId →
        ∃ x ∈ before ++ todo, some x.id = c.parentId) →
      (∀ c ∈ todo, ∀ x ∈ before ++ todo, some x.id = c.parentId →
        x.position < c.position) →
      todo.Pairwise posLe →
      ParentsBefore rootId before todo
  | [], _ => by
    intro _ _ _
    trivial
  | c :: rest, before => by
    intro hex hlt hsort
    have happ : (before ++ [c]) ++ rest = before ++ c :: rest := by
      rw [List.append_assoc, List.singleton_append]
    refine ⟨?_, ?_⟩
    · intro hntop
      obtain ⟨x, hx, hxid⟩ := hex c (List.mem_cons_self _ _) hntop
      rcases List.mem_append.mp hx with hxb | hxc
      · exact ⟨x, hxb, hxid⟩
      · exfalso
        have hxlt : x.position < c.position := hlt c (List.mem_cons_self _ _) x hx hxid
        rcases List.mem_cons.mp hxc with hxc' | hxr
        · rw [hxc'] at hxlt
          exact lt_irrefl _ hxlt
        · have : posLe c x := (List.pairwise_cons.mp hsort).1 x hxr
          exact absurd hxlt (not_lt.mpr this)
    · apply parentsBefore_of_sorted rootId rest (before ++ [c])
      · intro c' hc' hntop'
        rw [happ]
        exact hex c' (List.mem_cons_of_mem _ hc') hntop'
      · intro c' hc' x hx hxid
        rw [happ] at hx
        exact hlt c' (List.mem_cons_of_mem _ hc') x hx hxid
      · exact (List.pairwise_cons.mp hsort).2

/-- Master invariant of the pass: on success, every non-top-level output
comment's path is its parent's path extended with its own 1-based sibling
rank, where the parent is found by id in the output and the rank is the
comment's `sibIdx` over the output list. -/
theorem assignLoop_child_paths (rootId : String) (total : Nat) :
    ∀ (todo done : List Comment) (k : Nat) (l : List Comment),
      assignLoop rootId total done todo k = Except.ok l →
      (done ++ todo).Pairwise (fun a b => a.id ≠ b.id) →
      ParentsBefore rootId done todo →
      (∀ c ∈ done, c.parentId ≠ some rootId →
        ∃ p ∈ done, some p.id = c.parentId ∧
          c.path = p.path ++ "." ++ toString (sibIdx (done ++ todo) c.parentId c.id + 1)) →
      ∀ c ∈ l, c.parentId ≠ some rootId →
        ∃ p ∈ l, some p.id = c.parentId ∧
          c.path = p.path ++ "." ++ toString (sibIdx l c.parentId c.id + 1)
  | [], done, k, l => by
    intro h _ _ hdone
    simp only [assignLoop] at h
    cases h
    rw [List.append_nil] at hdone
    exact hdone
  | c :: todo, done, k, l => by
    intro h hnd hpb hdone
    simp only [assignLoop] at h
    by_cases htop : c.parentId = some rootId
    · rw [calculatePath_top (done ++ c :: todo) k htop] at h
      set c' : Comment :=
        { c with path := toString k, score := calculateScore c total } with hc'
      have hassoc : (done ++ [c']) ++ todo = done ++ c' :: todo := by
        simp
      have hkeys : List.Forall₂ SameKey (done ++ c :: todo) (done ++ c' :: todo) :=
        List.rel_append (forall₂_sameKey_refl done)
          (List.Forall₂.cons (sameKey_update c _ _) (forall₂_sameKey_refl todo))
      apply assignLoop_child_paths rootId total todo (done ++ [c']) (k + 1) l h
      · refine pairwise_ne_of_map_id_eq ?_ hnd
        rw [hassoc]
        simp
      · exact parentsBefore_congr rootId todo (done ++ [c]) (done ++ [c'])
          (List.rel_append (forall₂_sameKey_refl done)
            (List.Forall₂.cons (sameKey_update c _ _) List.Forall₂.nil)) hpb.2
      · intro x hx hxntop
        rcases List.mem_append.mp hx with hxd | hxc
        · obtain ⟨p, hp, hpid, hpath⟩ := hdone x hxd hxntop
          refine ⟨p, List.mem_append_left _ hp, hpid, ?_⟩
          rw [hpath, hassoc]
          rw [sibIdx_congr _ _ hkeys]
        · exfalso
          have hxe : x = c' := by simpa using hxc
          rw [hxe] at hxntop
          exact hxntop htop
    · cases hf : List.find? (fun x => some x.id = c.parentId) (done ++ c :: todo) with
      | none =>
        rw [calculatePath_nontop_none k htop hf] at h
        cases h
      | some q =>
        rw [calculatePath_nontop_of_find k htop hf] at h
        set P : String :=
          q.path ++ "." ++ toString (sibIdx (done ++ c :: todo) c.parentId c.id + 1) with hP
        set c' : Comment := { c with path := P, score := calculateScore c total } with hc'
        have hassoc : (done ++ [c']) ++ todo = done ++ c' :: todo := by
          simp
        have hkeys : List.Forall₂ SameKey (done ++ c :: todo) (done ++ c' :: todo) :=
          List.rel_append (forall₂_sameKey_refl done)
            (List.Forall₂.cons (sameKey_update c _ _) (forall₂_sameKey_refl todo))
        obtain ⟨pd, hpd, hpdid⟩ := hpb.1 htop
        have hqmem : q ∈ done ++ c :: todo := List.mem_of_find?_eq_some hf
        have hqid' := List.find?_some hf
        have hqid : some q.id = c.parentId := of_decide_eq_true hqid'
        have hqpd : q = pd := by
          apply eq_of_mem_of_id_eq hnd hqmem (List.mem_append_left _ hpd)
          exact Option.some.inj (hqid.trans hpdid.symm)
        apply assignLoop_child_paths rootId total todo (done ++ [c']) k l h
        · refine pairwise_ne_of_map_id_eq ?_ hnd
          rw [hassoc]
          simp
        · exact parentsBefore_congr rootId todo (done ++ [c]) (done ++ [c'])
            (List.rel_append (forall₂_sameKey_refl done)
              (List.Forall₂.cons (sameKey_update c _ _) List.Forall₂.nil)) hpb.2
        · intro x hx hxntop
          rcases List.mem_append.mp hx with hxd | hxc
          · obtain ⟨p, hp, hpid, hpath⟩ := hdone x hxd hxntop
            refine ⟨p, List.mem_append_left _ hp, hpid, ?_⟩
            rw [hpath, hassoc]
            rw [sibIdx_congr _ _ hkeys]
          · have hxe : x = c' := by simpa using hxc
            refine ⟨pd, List.mem_append_left _ hpd, ?_, ?_⟩
            · rw [hxe]
              exact hpdid
            · rw [hxe]
              show P = pd.path ++ "." ++
                toString (sibIdx ((done ++ [c']) ++ todo) c'.parentId c'.id + 1)
              rw [hP, hqpd, hassoc, ← sibIdx_congr _ _ hkeys]

/-- In a list with pairwise-distinct ids, searching by the id of the
`i`-th element finds index `i`. -/
theorem findIdx_get_of_pairwise_ne :
    ∀ (s : List Comment), s.Pairwise (fun a b => a.id ≠ b.id) →
      ∀ (i : Nat) (hi : i < s.length),
        s.findIdx (fun x => x.id = (s.get ⟨i, hi⟩).id) = i
  | [] => by
    intro _ i hi
    exact absurd hi (Nat.not_lt_zero i)
  | a :: t => by
    intro hp i hi
    cases i with
    | zero =>
      simp [List.findIdx_cons]
    | succ j =>
      have hj : j < t.length := by simpa using hi
      have hget : (a :: t).get ⟨j + 1, hi⟩ = t.get ⟨j, hj⟩ := rfl
      have hmem : t.get ⟨j, hj⟩ ∈ t := t.get_mem _ _
      have hne : ¬ a.id = (t.get ⟨j, hj⟩).id := (List.pairwise_cons.mp hp).1 _ hmem
      rw [hget, List.findIdx_cons, decide_eq_false hne]
      simp only [cond_false]
      rw [findIdx_get_of_pairwise_ne t (List.pairwise_cons.mp hp).2 j hj]

/-- C6: in every returned output with pairwise-distinct ids, no id
colliding with the root's, and children rendered after their parents, the
surviving children of any output comment with path `P` — the comments
whose `parentId` is its id, taken in output order, i.e. displayPosition
order — receive exactly the paths `P.1`, `P.2`, …, `P.n`: the suffix is
the child's 1-based rank among all comments sharing its `parentId`. -/
theorem claim6 (tree : CommentTree) (dom : DomMap) (l : List Comment)
    (h : extractComments tree dom = Except.ok l)
    (hnd : l.Pairwise (fun a b => a.id ≠ b.id))
    (hrid : ∀ x ∈ l, x.id ≠ tree.id)
    (hpos : ∀ c ∈ l, ∀ p ∈ l, c.parentId = some p.id → p.position < c.position) :
    ∀ parent ∈ l, ∀ (i : Nat)
      (hi : i < (l.filter (fun x => x.parentId = some parent.id)).length),
      ((l.filter (fun x => x.parentId = some parent.id)).get ⟨i, hi⟩).path =
        parent.path ++ "." ++ toString (i + 1) := by
  have h' := h
  simp only [extractComments] at h'
  obtain ⟨rest, hl, hf2⟩ := assignLoop_ok_shape _ _ _ _ _ _ h'
  rw [List.nil_append] at hl
  subst hl
  set M := mergedComments tree dom with hM
  have hmaps := forall₂_sameKey_maps hf2
  have hndM : M.Pairwise (fun a b => a.id ≠ b.id) :=
    pairwise_ne_of_map_id_eq hmaps.1.symm hnd
  have hex : ∀ c ∈ M, c.parentId ≠ some tree.id →
      ∃ x ∈ ([] : List Comment) ++ M, some x.id = c.parentId := by
    intro c hc hntop
    exact assignLoop_ok_parent tree.id M.length M [] 1 l h' c hc hntop
  have hlt : ∀ c ∈ M, ∀ x ∈ ([] : List Comment) ++ M,
      some x.id = c.parentId → x.position < c.position := by
    intro c hc x hx hxid
    rw [List.nil_append] at hx
    obtain ⟨c₂, hc₂, hkc⟩ := forall₂_mem_left hf2 c hc
    obtain ⟨x₂, hx₂, hkx⟩ := forall₂_mem_left hf2 x hx
    have hppp : c₂.parentId = some x₂.id := by
      rw [← hkc.2.1, ← hkx.1, ← hxid]
    have hlt₂ := hpos c₂ hc₂ x₂ hx₂ hppp
    rw [hkx.2.2, hkc.2.2]
    exact hlt₂
  have hsorted : M.Pairwise posLe := List.sorted_insertionSort posLe _
  have hpb : ParentsBefore tree.id [] M :=
    parentsBefore_of_sorted tree.id M [] hex hlt hsorted
  have hndM' : (([] : List Comment) ++ M).Pairwise (fun a b => a.id ≠ b.id) := by
    rw [List.nil_append]
    exact hndM
  have hdn : ∀ c ∈ ([] : List Comment), c.parentId ≠ some tree.id →
      ∃ p ∈ ([] : List Comment), some p.id = c.parentId ∧
        c.path = p.path ++ "." ++
          toString (sibIdx (([] : List Comment) ++ M) c.parentId c.id + 1) := by
    intro c hc
    cases hc
  have hchar := assignLoop_child_paths tree.id M.length M [] 1 l h' hndM' hpb hdn
  intro parent hparent i hi
  set children := l.filter (fun x => x.parentId = some parent.id) with hch
  have hcmem : children.get ⟨i, hi⟩ ∈ children := children.get_mem _ _
  have hcl : children.get ⟨i, hi⟩ ∈ l := List.mem_of_mem_filter hcmem
  have hcpid0 := (List.mem_filter.mp hcmem).2
  have hcpid : (children.get ⟨i, hi⟩).parentId = some parent.id :=
    of_decide_eq_true hcpid0
  have hcntop : (children.get ⟨i, hi⟩).parentId ≠ some tree.id := by
    rw [hcpid]
    intro hcon
    exact hrid parent hparent (Option.some.inj hcon)
  obtain ⟨p, hp, hpid, hpath⟩ := hchar _ hcl hcntop
  have hpparent : p = parent := by
    apply eq_of_mem_of_id_eq hnd hp hparent
    exact Option.some.inj (hpid.trans hcpid)
  have hsib : sibIdx l (children.get ⟨i, hi⟩).parentId (children.get ⟨i, hi⟩).id = i := by
    rw [← sibIdx_eq_findIdx, hcpid]
    apply findIdx_get_of_pairwise_ne
    exact List.Pairwise.sublist (List.filter_sublist l) hnd
  rw [hpath, hpparent, hsib]

/-- Witness for C6 at the concrete scenario: comment `B` (path `"2"`) has
one surviving child, which receives path `"2.1"`. -/
theorem claim6_witness :
    ((c1Output.filter (fun x => x.parentId = some c1B.id)).get ⟨0, by decide⟩).path =
      c1B.path ++ "." ++ toString (0 + 1) :=
  claim6 c1Tree c1Dom c1Output c1_pipeline (by decide) (by decide) (by decide)
    c1B (by decide) 0 (by decide)
